import Mathlib

/-!
GopherJS natives: the `net/http` fetch transport and `reflect.Swapper`.

A shallow embedding of

* `compiler/natives/src/net/http/fetch.go` (`streamReader.Read`, `streamReader.Close`,
  `fetchTransport.RoundTrip`), and
* `compiler/natives/src/reflect/swapper.go` (`Swapper`).

The host objects (the fetch promise, the `ReadableStream` reader, the request body) are black
boxes of the environment. They are modelled by the outcome they produce, and every call made
on them is recorded in the state so that statements about *which* calls happen, and in what
order, can be made.
-/

namespace GopherJS

/-! ## Go values -/

/-- One byte of a `[]byte`. -/
abbrev Byte := Fin 256

/-- Go `error` values that occur in `fetch.go`: the sentinel `io.EOF` and the values built by
`errors.New(text)`. -/
inductive GoError where
  | EOF
  | New (text : String)
  deriving DecidableEq, Repr

/-- The method `Error()`: the message of an error value. -/
def GoError.Error : GoError → String
  | .EOF => "EOF"
  | .New text => text

/-- Go builtin `copy(dst, src)`: copies `min(len(dst), len(src))` elements to the front of `dst`
and returns that count together with the updated `dst`. -/
def copy (dst src : List Byte) : Nat × List Byte :=
  let n := min dst.length src.length
  (n, src.take n ++ dst.drop n)

/-! ## The chunk source (`ReadableStream` reader) -/

/-- How the promise returned by one `stream.read()` call settles. -/
inductive ReadSettlement where
  /-- fulfilled with `{done: false, value: b}` -/
  | value (b : List Byte)
  /-- fulfilled with `{done: true}` -/
  | done
  /-- rejected with a reason whose `message` property is `message` -/
  | rejected (message : String)
  deriving DecidableEq, Repr

/-- The host stream handle (`r.stream`). `script` lists how the promises of the successive
`read()` calls settle; a `read()` issued when the script is exhausted never settles.
`reads` and `cancels` count the `read` and `cancel` calls made on the handle. -/
structure Stream where
  script : List ReadSettlement
  reads : Nat
  cancels : Nat
  deriving DecidableEq, Repr

/-- `stream.Call("read")`: one pull. Returns how its promise settles (`none`: never) and the
handle afterwards. -/
def Stream.read (s : Stream) : Option ReadSettlement × Stream :=
  match s.script with
  | [] => (none, { s with reads := s.reads + 1 })
  | o :: rest => (some o, { s with script := rest, reads := s.reads + 1 })

/-- `stream.Call("cancel")`. -/
def Stream.cancel (s : Stream) : Stream :=
  { s with cancels := s.cancels + 1 }

/-! ## `streamReader` -/

/-- Go `type streamReader struct { pending []byte; stream *js.Object }`. -/
structure streamReader where
  pending : List Byte
  stream : Stream
  deriving DecidableEq, Repr

/-- What one `Read(p)` call does: `ret` is the returned `(n, err)` (`none` when the call
blocks forever in its `select`), `p` the caller's buffer afterwards, `r` the reader afterwards. -/
structure ReadCall where
  ret : Option (Nat × Option GoError)
  p : List Byte
  r : streamReader
  deriving DecidableEq, Repr

/-- The tail of `Read`, lines 46-48: `n = copy(p, r.pending); r.pending = r.pending[n:];
return n, nil`. -/
def streamReader.deliver (r : streamReader) (p : List Byte) : ReadCall :=
  let c := copy p r.pending
  { ret := some (c.1, none), p := c.2, r := { r with pending := r.pending.drop c.1 } }

/-- `func (r *streamReader) Read(p []byte) (n int, err error)`. -/
def streamReader.Read (r : streamReader) (p : List Byte) : ReadCall :=
  if r.pending.length = 0 then
    match r.stream.read with
    | (some (.value b), s) => streamReader.deliver { pending := b, stream := s } p
    | (some .done, s) => { ret := some (0, some .EOF), p := p, r := { r with stream := s } }
    | (some (.rejected m), s) =>
        { ret := some (0, some (.New m)), p := p, r := { r with stream := s } }
    | (none, s) => { ret := none, p := p, r := { r with stream := s } }
  else
    streamReader.deliver r p

/-- `func (r *streamReader) Close() error`: `r.stream.Call("cancel"); return nil`. -/
def streamReader.Close (r : streamReader) : streamReader × Option GoError :=
  ({ r with stream := r.stream.cancel }, none)

/-- The stream handle of a source that still has `chunks` to yield before it signals done,
after `reads` and `cancels` calls. -/
def sourceAt (chunks : List (List Byte)) (reads cancels : Nat) : Stream :=
  { script := chunks.map ReadSettlement.value ++ [ReadSettlement.done],
    reads := reads, cancels := cancels }

/-- A fresh chunk source that yields `chunks` in order and then signals done. -/
def chunkSource (chunks : List (List Byte)) : Stream :=
  sourceAt chunks 0 0

/-- What a sequence of `Read` calls has produced so far. -/
structure Drained where
  /-- the bytes returned (`p[:n]` of each call), concatenated -/
  bytes : List Byte
  /-- some call returned `io.EOF` -/
  eof : Bool
  /-- some call before the first `io.EOF` returned another error, or never returned -/
  failed : Bool
  deriving DecidableEq, Repr

/-- Successive `Read` calls on one reader with fresh buffers of the given sizes, stopping at the
first call that does not return `(n, nil)`. -/
def drain : streamReader → List Nat → Drained
  | _, [] => { bytes := [], eof := false, failed := false }
  | r, sz :: rest =>
    let c := r.Read (List.replicate sz 0)
    match c.ret with
    | some (n, none) =>
        let d := drain c.r rest
        { d with bytes := c.p.take n ++ d.bytes }
    | some (_, some .EOF) => { bytes := [], eof := true, failed := false }
    | _ => { bytes := [], eof := false, failed := true }

/-! ## `net/http` headers -/

/-- Go `type Header map[string][]string`, as an association list with distinct keys. -/
abbrev Header := List (String × List String)

/-- Map read `h[k]`: the stored values, `nil` when the key is absent. -/
def Header.index : Header → String → List String
  | [], _ => []
  | (k', v') :: rest, k => if k' = k then v' else Header.index rest k

/-- Map write `h[k] = v`. -/
def Header.set : Header → String → List String → Header
  | [], k, v => [(k, v)]
  | (k', v') :: rest, k, v => if k' = k then (k, v) :: rest else (k', v') :: Header.set rest k v

/-- The keys present in the map. -/
def Header.keys (h : Header) : List String := h.map Prod.fst

/-- `Header.Get(key)`: the first value stored under the canonical form of `key`, or `""`.
The canonicalization function `CanonicalHeaderKey` is a parameter. -/
def Header.Get (canon : String → String) (h : Header) (key : String) : String :=
  match h.index (canon key) with
  | [] => ""
  | v :: _ => v

/-- Lines 105-109: `header := Header{}` followed by the `forEach` callback
`ck := CanonicalHeaderKey(key); header[ck] = append(header[ck], value)` run on every reported
entry, in the order reported. Entries are `(key, value)` pairs. -/
def collectHeader (canon : String → String) (entries : List (String × String)) : Header :=
  entries.foldl (fun header e => header.set (canon e.1) (header.index (canon e.1) ++ [e.2])) []

/-- Modelled from the spec: `CanonicalHeaderKey` is an external lookup (spec section 1, "HTTP
header canonicalization"), case-normalized per HTTP convention: the first letter and every
letter after a hyphen is upper case, every other letter lower case. Used for concrete
instances only; `RoundTrip` takes the canonicalization as a parameter. -/
def CanonicalHeaderKey (s : String) : String :=
  let step (acc : List Char × Bool) (c : Char) : List Char × Bool :=
    (acc.1 ++ [if acc.2 then c.toUpper else c.toLower], c = '-')
  String.mk (s.toList.foldl step ([], true)).1

/-! ## `strconv.ParseInt(s, 10, 64)` -/

/-- The two `strconv` error kinds. -/
inductive NumError where
  | ErrSyntax
  | ErrRange
  deriving DecidableEq, Repr

/-- `maxUint64/10 + 1`: the smallest `n` with `n * 10 > maxUint64`. -/
def uintCutoff : Nat := (2 ^ 64 - 1) / 10 + 1

/-- The digit loop of `strconv.ParseUint` for base 10 and bit size 64, on `uint64`
arithmetic (wrapping modulo `2 ^ 64`). -/
def parseUintLoop : List Char → Nat → Nat × Option NumError
  | [], n => (n, none)
  | d :: rest, n =>
    let v : Option Nat :=
      if '0' ≤ d ∧ d ≤ '9' then some (d.toNat - '0'.toNat)
      else if 'a' ≤ d ∧ d ≤ 'z' then some (d.toNat - 'a'.toNat + 10)
      else if 'A' ≤ d ∧ d ≤ 'Z' then some (d.toNat - 'A'.toNat + 10)
      else none
    match v with
    | none => (0, some .ErrSyntax)
    | some v =>
      if v ≥ 10 then (0, some .ErrSyntax)
      else if n ≥ uintCutoff then (2 ^ 64 - 1, some .ErrRange)
      else
        let n10 := (n * 10) % 2 ^ 64
        let n1 := (n10 + v) % 2 ^ 64
        if n1 < n10 ∨ n1 > 2 ^ 64 - 1 then (2 ^ 64 - 1, some .ErrRange)
        else parseUintLoop rest n1

/-- Modelled from the spec: `strconv.ParseUint(s, 10, 64)` belongs to the Go standard library;
the spec only says the value is parsed "as a signed 64-bit integer if present and well-formed".
The model follows the library routine: empty input is a syntax error, every character must be
a decimal digit, and a value above `2 ^ 64 - 1` is a range error. -/
def ParseUint (s : List Char) : Nat × Option NumError :=
  if s.length < 1 then (0, some .ErrSyntax) else parseUintLoop s 0

/-- Conversion `int64(x)` of an integer to two's complement 64-bit. -/
def toInt64 (x : Int) : Int := (x + 2 ^ 63) % 2 ^ 64 - 2 ^ 63

/-- The part of `strconv.ParseInt` after its call of `ParseUint`, for bit size 64: a syntax
error is passed on, a magnitude beyond the cutoff `2 ^ 63` is a range error, and otherwise
the result is `int64(un)`, negated when the input had a minus sign. -/
def parseIntTail (neg : Bool) (r : Nat × Option NumError) : Int × Option NumError :=
  let cutoff : Nat := 2 ^ 63
  if r.2 ≠ none ∧ r.2 ≠ some .ErrRange then (0, r.2)
  else if ¬ (neg = true) ∧ r.1 ≥ cutoff then ((cutoff : Int) - 1, some .ErrRange)
  else if neg = true ∧ r.1 > cutoff then (-(cutoff : Int), some .ErrRange)
  else (if neg = true then toInt64 (-(toInt64 r.1)) else toInt64 r.1, none)

/-- Modelled from the spec: `strconv.ParseInt(s, 10, 64)` belongs to the Go standard library;
the spec only says the value is parsed "as a signed 64-bit integer if present and well-formed".
The model follows the library routine: empty input is a syntax error, an optional leading `+`
or `-` is removed, the rest goes through `ParseUint`, and `parseIntTail` checks the range. -/
def ParseInt (s : List Char) : Int × Option NumError :=
  match s with
  | [] => (0, some .ErrSyntax)
  | c :: rest =>
    let neg := decide (c = '-')
    let s' := if c = '+' ∨ c = '-' then rest else c :: rest
    parseIntTail neg (ParseUint s')

/-- A decimal digit, `0` to `9`. -/
def isDecimalDigit (c : Char) : Bool := decide ('0' ≤ c ∧ c ≤ '9')

/-- The number a string of decimal digits denotes. -/
def digitsValue (ds : List Char) : Nat :=
  ds.foldl (fun acc c => 10 * acc + (c.toNat - '0'.toNat)) 0

/-- The number denoted by a non-empty string of decimal digits; `none` for every other
string. -/
def unsignedDecimal (ds : List Char) : Option Nat :=
  if ds ≠ [] ∧ ds.all isDecimalDigit = true then some (digitsValue ds) else none

/-- The spec's "well-formed base-10 signed integer", stated without reference to the parser:
an optional sign `+` or `-` followed by one or more decimal digits. The result is the integer
denoted, `none` for every other string. -/
def signedDecimal : List Char → Option Int
  | [] => none
  | c :: ds =>
    if c = '+' then (unsignedDecimal ds).map (fun (v : Nat) => (v : Int))
    else if c = '-' then (unsignedDecimal ds).map (fun (v : Nat) => -(v : Int))
    else (unsignedDecimal (c :: ds)).map (fun (v : Nat) => (v : Int))

/-- The content length the spec prescribes for a `Content-Length` header value (`""` when the
header is absent): the integer it denotes when it is well formed and fits in 64 bits,
otherwise `-1`. -/
def specContentLength (value : String) : Int :=
  match signedDecimal value.toList with
  | some x => if -(2 ^ 63 : Int) ≤ x ∧ x < 2 ^ 63 then x else -1
  | none => -1

/-! ## `fetchTransport.RoundTrip` -/

/-- The request body `req.Body`, an `io.ReadCloser` of the caller, given by what
`ioutil.ReadAll` obtains from it: the bytes read and the error the read ends with, if any. -/
structure RequestBody where
  content : List Byte
  failure : Option GoError
  deriving DecidableEq, Repr

/-- `ioutil.ReadAll(req.Body)`: `(body, err)`. -/
def RequestBody.ReadAll (b : RequestBody) : List Byte × Option GoError :=
  (b.content, b.failure)

/-- The fields of `*Request` that `RoundTrip` uses. `Header` lists the map entries in the order
the `range` loop visits them; `URL` is `req.URL.String()`. The `Cancel` channel is part of the
environment, see `Completion`. -/
structure Request where
  Method : String
  URL : String
  Header : List (String × List String)
  Body : Option RequestBody
  deriving DecidableEq, Repr

/-- The `opt` map handed to `fetch`: `headers` is the content of the host `Headers` object, one
pair per `append` call, and `body` is present only when the request has a body. -/
structure FetchOptions where
  method : String
  headers : List (String × String)
  body : Option (List Byte)
  deriving DecidableEq, Repr

/-- Calls that `RoundTrip` makes on its collaborators, in program order. -/
inductive HostCall where
  /-- `ioutil.ReadAll(req.Body)` -/
  | bodyReadAll
  /-- `req.Body.Close()` -/
  | bodyClose
  /-- `js.Global.Call("fetch", url, opt)` -/
  | fetch (url : String) (opt : FetchOptions)
  deriving DecidableEq, Repr

/-- The host response object passed to the success callback: `status`, the entries that
`headers.forEach` reports as `(key, value)` pairs in order, and the reader that
`body.getReader()` returns. -/
structure NativeResponse where
  status : Int
  headers : List (String × String)
  body : Stream
  deriving DecidableEq, Repr

/-- Which case of the final `select` is taken: the success callback has sent on `respCh`, the
failure callback has sent on `errCh`, `req.Cancel` has fired, or none of them ever happens. -/
inductive Completion where
  | fulfilled (result : NativeResponse)
  | rejected (reason : String)
  | canceled
  | never
  deriving DecidableEq, Repr

/-- Go `*Response`, the fields set by `RoundTrip`. -/
structure Response where
  Status : String
  StatusCode : Int
  Header : Header
  ContentLength : Int
  Body : streamReader
  Request : Request
  deriving DecidableEq, Repr

/-- What one `RoundTrip` call does: `ret` is the returned `(*Response, error)`, `none` when the
call does not return (it panics, or blocks forever in its `select`); `panicked` tells that a
host call threw and the call ended in a panic; `calls` lists the collaborator calls made, in
order. -/
structure RoundTripCall where
  ret : Option (Option Response × Option GoError)
  panicked : Bool
  calls : List HostCall
  deriving DecidableEq, Repr

/-- The `(key, value)` pairs in the order the nested `range` loops of lines 76-80 visit them. -/
def headerPairs (h : List (String × List String)) : List (String × String) :=
  h.flatMap (fun kv => kv.2.map (fun value => (kv.1, value)))

/-- Lines 75-80: one `headers.Call("append", key, value)` per pair. The host throws on a pair it
does not accept (`accepts key value = false`), which ends `RoundTrip` in a panic: there is no
`defer` or `recover`. The result is the content of the `Headers` object, or `none` when an
`append` threw. -/
def appendHeaders (accepts : String → String → Bool) :
    List (String × String) → Option (List (String × String))
  | [] => some []
  | (key, value) :: rest =>
    if accepts key value then (appendHeaders accepts rest).map (fun hs => (key, value) :: hs)
    else none

/-- The check `Headers.append(name, value)` makes in a host that follows the Fetch standard:
the name is a non-empty HTTP token, and the value holds no code point above `0xFF` (it is
converted to a byte string) and no NUL, line feed or carriage return. The host is a parameter
of `RoundTrip`; this instance is used at concrete inputs. -/
def hostAcceptsHeader (name value : String) : Bool :=
  let tchar (c : Char) : Bool := c.isAlphanum || "!#$%&'*+-.^_`|~".toList.contains c
  let vchar (c : Char) : Bool := decide (c.toNat ≤ 255) && c.toNat != 0 && c.toNat != 10
    && c.toNat != 13
  !name.toList.isEmpty && name.toList.all tchar && value.toList.all vchar

/-- Lines 115-118: `contentLength := int64(-1)`, replaced by the parsed `Content-Length`
header when `strconv.ParseInt` reports no error. -/
def contentLength (canon : String → String) (header : Header) : Int :=
  match ParseInt (header.Get canon "Content-Length").toList with
  | (cl, none) => cl
  | (_, some _) => -1

/-- The success callback, lines 104-136: the `*Response` sent on `respCh`. -/
def buildResponse (canon : String → String) (statusText : Int → String) (req : Request)
    (result : NativeResponse) : Response :=
  let header := collectHeader canon result.headers
  { Status := toString result.status ++ " " ++ statusText result.status
    StatusCode := result.status
    Header := header
    ContentLength := contentLength canon header
    Body := { pending := [], stream := result.body }
    Request := req }

/-- Lines 97-150: the `fetch` call and the `select` on its completion, after `calls` have been
made. -/
def awaitFetch (canon : String → String) (statusText : Int → String) (req : Request)
    (opt : FetchOptions) (calls : List HostCall) (completion : Completion) : RoundTripCall :=
  let calls := calls ++ [HostCall.fetch req.URL opt]
  match completion with
  | .fulfilled result =>
      { ret := some (some (buildResponse canon statusText req result), none), panicked := false,
        calls := calls }
  | .rejected _ =>
      { ret := some (none, some (.New "net/http: fetch() failed")), panicked := false,
        calls := calls }
  | .canceled =>
      { ret := some (none, some (.New "net/http: request canceled")), panicked := false,
        calls := calls }
  | .never => { ret := none, panicked := false, calls := calls }

/-- `func (t *fetchTransport) RoundTrip(req *Request) (*Response, error)`. The host check of
`Headers.append` is the parameter `accepts`; the functions `CanonicalHeaderKey` and
`StatusText` of `net/http` are the parameters `canon` and `statusText`; `completion` is what
the environment does after `fetch` has been called. -/
def RoundTrip (accepts : String → String → Bool) (canon : String → String)
    (statusText : Int → String) (req : Request) (completion : Completion) : RoundTripCall :=
  match appendHeaders accepts (headerPairs req.Header) with
  | none => { ret := none, panicked := true, calls := [] }
  | some headers =>
    let opt : FetchOptions := { method := req.Method, headers := headers, body := none }
    match req.Body with
    | some reqBody =>
      match reqBody.ReadAll with
      | (_, some err) =>
          { ret := some (none, some err), panicked := false,
            calls := [HostCall.bodyReadAll, HostCall.bodyClose] }
      | (body, none) =>
          awaitFetch canon statusText req { opt with body := some body }
            [HostCall.bodyReadAll, HostCall.bodyClose] completion
    | none => awaitFetch canon statusText req opt [] completion

/-- The host accepts every header of the request, so the loop of lines 75-80 completes. -/
def headersAccepted (accepts : String → String → Bool) (req : Request) : Prop :=
  ∀ e ∈ headerPairs req.Header, accepts e.1 e.2 = true

/-- A call is an invocation of the host fetch primitive. -/
def HostCall.isFetch : HostCall → Bool
  | .fetch _ _ => true
  | _ => false

/-! ## `reflect.Swapper` -/

/-- Width of Go `int` and `uint` under GopherJS. -/
def intBits : Nat := 32

/-- Conversion `uint(i)` of an `int`. -/
def toUint (i : Int) : Nat := (i % 2 ^ intBits).toNat

/-- A slice value as GopherJS represents it at run time: the backing JavaScript array
`$array`, which it shares with every slice cut from the same array, the position `$offset` of
its first element in that array, and its length `$length`. A slice made by a literal or by
`make` has offset `0`; `a[low:high]` has the offset of `a` plus `low`. -/
structure Slice (α : Type) where
  array : List α
  offset : Nat
  length : Nat
  deriving DecidableEq, Repr

/-- The elements of a slice: `length` elements of the backing array from `offset` on. -/
def Slice.elems {α : Type} (s : Slice α) : List α := (s.array.drop s.offset).take s.length

/-- The argument `slice interface{}` of `Swapper`: a slice, or a value of another kind. -/
inductive GoValue (α : Type) where
  | slice (s : Slice α)
  | other (kind : String)
  deriving DecidableEq, Repr

/-- Go `reflect.ValueError`. -/
structure ValueError where
  Method : String
  Kind : String
  deriving DecidableEq, Repr

/-- What a call of the function returned by `Swapper` does: it panics with a message or
returns, and `array` is the backing array afterwards. -/
structure SwapCall (α : Type) where
  panicked : Option String
  array : List α
  deriving DecidableEq, Repr

/-- Lines 29-31 on the JavaScript array `s`: `tmp := s.Index(i); s.SetIndex(i, s.Index(j));
s.SetIndex(j, tmp)`. Both positions lie inside the array when they are below the length of a
slice of it; outside it the model leaves the array as it is. -/
def swapIndex {α : Type} (s : List α) (i j : Nat) : List α :=
  match s[i]?, s[j]? with
  | some tmp, some sj => (s.set i sj).set j tmp
  | _, _ => s

/-- Lines 12-32 of `Swapper`, for a slice value: the function it returns. The returned
function is given the content of the backing array `$array` at the time it is called. -/
def swapperOf {α : Type} (slice : Slice α) : Int → Int → List α → SwapCall α :=
  let vLen := toUint slice.length
  match vLen with
  | 0 => fun _ _ s => { panicked := some "reflect: slice index out of range", array := s }
  | 1 => fun i j s =>
    if i ≠ 0 ∨ j ≠ 0 then { panicked := some "reflect: slice index out of range", array := s }
    else { panicked := none, array := s }
  | _ => fun i j s =>
    if toUint i ≥ vLen ∨ toUint j ≥ vLen then
      { panicked := some "reflect: slice index out of range", array := s }
    else { panicked := none, array := swapIndex s i.toNat j.toNat }

/-- `func Swapper(slice interface{}) func(i, j int)`: panics with a `ValueError` when the
argument is not a slice, and otherwise returns the swap function. -/
def Swapper {α : Type} (slice : GoValue α) : Except ValueError (Int → Int → List α → SwapCall α) :=
  match slice with
  | .other kind => .error { Method := "Swapper", Kind := kind }
  | .slice s => .ok (swapperOf s)

/-- A value of Go type `int` under GopherJS. -/
def isInt (i : Int) : Prop := -(2 ^ (intBits - 1) : Int) ≤ i ∧ i < 2 ^ (intBits - 1)

/-- The slice as seen after the call: same offset and length, new backing array. -/
def Slice.after {α : Type} (s : Slice α) (c : SwapCall α) : Slice α :=
  { s with array := c.array }

/-- The swap the claim describes, on the elements of a slice: exchange positions `i` and
`j`. -/
def swapElems {α : Type} (l : List α) (i j : Nat) : List α :=
  match l[i]?, l[j]? with
  | some a, some b => (l.set i b).set j a
  | _, _ => l

end GopherJS

namespace GopherJS

/-! ## `streamReader.Read`: single calls -/

theorem copy_fst (dst src : List Byte) : (copy dst src).1 = min dst.length src.length := rfl

theorem copy_snd_length (dst src : List Byte) : (copy dst src).2.length = dst.length := by
  simp only [copy, List.length_append, List.length_take, List.length_drop]
  omega

theorem copy_snd_take (dst src : List Byte) :
    (copy dst src).2.take (copy dst src).1 = src.take (min dst.length src.length) := by
  simp only [copy]
  rw [List.take_append_of_le_length (by simp)]
  rw [List.take_take]
  simp

theorem copy_snd_drop (dst src : List Byte) :
    (copy dst src).2.drop (copy dst src).1 = dst.drop (min dst.length src.length) := by
  simp only [copy]
  rw [List.drop_append_of_le_length (by simp)]
  have : List.drop (min dst.length src.length) (List.take (min dst.length src.length) src) = [] := by
    simp
  rw [this, List.nil_append]

theorem Read_of_pending (r : streamReader) (p : List Byte) (h : r.pending ≠ []) :
    r.Read p = r.deliver p := by
  have h0 : r.pending.length ≠ 0 := by
    simpa [List.length_eq_zero] using h
  simp [streamReader.Read, h0]

/-- C7. With a non-empty pending buffer, `Read(p)` returns `n = min(len(p), len(pending))` and a
nil error, writes the first `n` bytes of the old pending buffer to `p[0:n]` (the rest of `p`
and its length are untouched), leaves pending equal to the old pending buffer without its
first `n` bytes, and makes no call on the chunk source. -/
theorem Read_pending_nonempty (r : streamReader) (p : List Byte) (h : r.pending ≠ []) :
    (r.Read p).ret = some (min p.length r.pending.length, none) ∧
    (r.Read p).p.take (min p.length r.pending.length)
      = r.pending.take (min p.length r.pending.length) ∧
    (r.Read p).p.drop (min p.length r.pending.length)
      = p.drop (min p.length r.pending.length) ∧
    (r.Read p).p.length = p.length ∧
    (r.Read p).r.pending = r.pending.drop (min p.length r.pending.length) ∧
    (r.Read p).r.stream = r.stream := by
  rw [Read_of_pending r p h]
  refine ⟨rfl, ?_, ?_, ?_, rfl, rfl⟩
  · exact copy_snd_take p r.pending
  · exact copy_snd_drop p r.pending
  · exact copy_snd_length p r.pending

theorem Read_pending_nonempty_witness :
    ([1, 2, 3] : List Byte) ≠ [] ∧
    (streamReader.Read ⟨[1, 2, 3], ⟨[], 0, 0⟩⟩ [9, 9]).ret = some (2, none) ∧
    (streamReader.Read ⟨[1, 2, 3], ⟨[], 0, 0⟩⟩ [9, 9]).r.pending = [3] ∧
    (streamReader.Read ⟨[1, 2, 3], ⟨[], 0, 0⟩⟩ [9, 9]).r.stream = ⟨[], 0, 0⟩ :=
  have h := Read_pending_nonempty ⟨[1, 2, 3], ⟨[], 0, 0⟩⟩ [9, 9] (by decide)
  ⟨by decide, h.1, h.2.2.2.2.1, h.2.2.2.2.2⟩

/-- C8. With an empty pending buffer, `Read` makes exactly one `read` call on the chunk source
(and no `cancel` call). If that pull resolves with done, `Read` returns `(0, io.EOF)`; if it is
rejected, `Read` returns `(0, err)` where `err.Error()` is the message supplied by the host. In
both cases pending stays empty and the caller's buffer is as it was. -/
theorem Read_pending_empty (r : streamReader) (p : List Byte) (h : r.pending = []) :
    (r.Read p).r.stream.reads = r.stream.reads + 1 ∧
    (r.Read p).r.stream.cancels = r.stream.cancels ∧
    (r.Read p).r.stream.script = r.stream.script.tail ∧
    (r.stream.script.head? = some .done →
      (r.Read p).ret = some (0, some .EOF) ∧ (r.Read p).r.pending = [] ∧ (r.Read p).p = p) ∧
    (∀ message, r.stream.script.head? = some (.rejected message) →
      (∃ err, (r.Read p).ret = some (0, some err) ∧ err.Error = message) ∧
      (r.Read p).r.pending = [] ∧ (r.Read p).p = p) := by
  obtain ⟨pending, script, reads, cancels⟩ := r
  simp only at h
  subst h
  cases script with
  | nil => simp [streamReader.Read, Stream.read]
  | cons o rest =>
    cases o with
    | value b => simp [streamReader.Read, Stream.read, streamReader.deliver]
    | done => simp [streamReader.Read, Stream.read]
    | rejected m => simp [streamReader.Read, Stream.read, GoError.Error]

theorem Read_pending_empty_witness :
    ([] : List Byte) = [] ∧
    (streamReader.Read ⟨[], ⟨[.done], 0, 0⟩⟩ [9]).r.stream.reads = 1 ∧
    (streamReader.Read ⟨[], ⟨[.done], 0, 0⟩⟩ [9]).ret = some (0, some .EOF) ∧
    (∃ err, (streamReader.Read ⟨[], ⟨[.rejected "aborted"], 0, 0⟩⟩ [9]).ret = some (0, some err) ∧
      err.Error = "aborted") :=
  ⟨rfl, (Read_pending_empty ⟨[], ⟨[.done], 0, 0⟩⟩ [9] rfl).1,
    ((Read_pending_empty ⟨[], ⟨[.done], 0, 0⟩⟩ [9] rfl).2.2.2.1 rfl).1,
    ((Read_pending_empty ⟨[], ⟨[.rejected "aborted"], 0, 0⟩⟩ [9] rfl).2.2.2.2 "aborted" rfl).1⟩

/-- C6, as stated, fails: on a reader with empty pending whose source yields the chunk `[1]`,
a `Read` with a zero-length buffer issues a pull and pending becomes `[1]`. -/
theorem Read_zero_length_counterexample :
    ¬ (∀ r : streamReader,
        (r.Read []).r.pending = r.pending ∧ (r.Read []).r.stream.reads = r.stream.reads) := by
  intro h
  have h1 := (h ⟨[], ⟨[.value [1]], 0, 0⟩⟩).2
  revert h1
  decide

/-- C6, amended. A `Read` with a zero-length buffer returns `n = 0` whenever it returns, and
never removes a byte from pending. With pending non-empty it leaves the whole reader unchanged
(no pull) and returns `(0, nil)`. With pending empty it issues exactly one pull, and pending
afterwards is the pulled chunk when one arrives and empty otherwise. -/
theorem Read_zero_length (r : streamReader) :
    (∀ n err, (r.Read []).ret = some (n, err) → n = 0) ∧
    (r.Read []).p = [] ∧
    (r.pending ≠ [] → (r.Read []).r = r ∧ (r.Read []).ret = some (0, none)) ∧
    (r.pending = [] →
      (r.Read []).r.stream.reads = r.stream.reads + 1 ∧
      (∀ b, r.stream.script.head? = some (.value b) →
        (r.Read []).r.pending = b ∧ (r.Read []).ret = some (0, none)) ∧
      (r.stream.script.head? ≠ none → (∀ b, r.stream.script.head? ≠ some (.value b)) →
        (r.Read []).r.pending = [] ∧ ∃ err, (r.Read []).ret = some (0, some err))) := by
  obtain ⟨pending, script, reads, cancels⟩ := r
  cases pending with
  | cons x xs => simp [streamReader.Read, streamReader.deliver, copy]
  | nil =>
    cases script with
    | nil => simp [streamReader.Read, Stream.read]
    | cons o rest =>
      cases o with
      | value b => simp [streamReader.Read, Stream.read, streamReader.deliver, copy]
      | done => simp [streamReader.Read, Stream.read]
      | rejected m => simp [streamReader.Read, Stream.read]

theorem Read_zero_length_witness :
    ([5] : List Byte) ≠ [] ∧
    (streamReader.Read ⟨[5], ⟨[.done], 0, 0⟩⟩ []).r = ⟨[5], ⟨[.done], 0, 0⟩⟩ ∧
    (streamReader.Read ⟨[], ⟨[.value [5]], 0, 0⟩⟩ []).r.pending = [5] :=
  ⟨by decide, ((Read_zero_length ⟨[5], ⟨[.done], 0, 0⟩⟩).2.2.1 (by decide)).1,
    (((Read_zero_length ⟨[], ⟨[.value [5]], 0, 0⟩⟩).2.2.2 rfl).2.1 [5] rfl).1⟩

/-- C9, as stated, fails: on a reader with empty pending whose source yields the chunk `[7]`,
`Read` with a one-byte buffer returns `(1, nil)`. -/
theorem Read_positive_counterexample :
    ¬ (∀ (r : streamReader) (p : List Byte) (n : Nat),
        (r.Read p).ret = some (n, none) → n > 0 → r.pending ≠ []) := by
  intro h
  exact h ⟨[], ⟨[.value [7]], 0, 0⟩⟩ [0] 1 (by decide) (by decide) rfl

/-- C9, amended. If `Read` returns `n > 0` with a nil error, then the buffer is non-empty and
either pending was non-empty when the call started, or pending was empty and the single pull
of the call yielded a non-empty chunk; in both cases the bytes come from the copy at the end
of `Read`. -/
theorem Read_positive (r : streamReader) (p : List Byte) (n : Nat)
    (hret : (r.Read p).ret = some (n, none)) (hn : n > 0) :
    p ≠ [] ∧
    (r.pending ≠ [] ∨
      (r.pending = [] ∧ ∃ b, b ≠ [] ∧ r.stream.script.head? = some (.value b) ∧
        (r.Read p).r.stream.reads = r.stream.reads + 1 ∧ n = min p.length b.length)) := by
  obtain ⟨pending, script, reads, cancels⟩ := r
  cases pending with
  | cons x xs =>
    simp only [streamReader.Read, streamReader.deliver, copy] at hret
    simp at hret
    refine ⟨?_, Or.inl (by simp)⟩
    rintro rfl
    simp at hret
    omega
  | nil =>
    cases script with
    | nil => simp [streamReader.Read, Stream.read] at hret
    | cons o rest =>
      cases o with
      | value b =>
        simp [streamReader.Read, Stream.read, streamReader.deliver, copy] at hret
        refine ⟨?_, Or.inr ⟨rfl, b, ?_, rfl, ?_, hret.symm⟩⟩
        · rintro rfl
          simp at hret
          omega
        · rintro rfl
          simp at hret
          omega
        · simp [streamReader.Read, Stream.read, streamReader.deliver]
      | done => simp [streamReader.Read, Stream.read] at hret
      | rejected m => simp [streamReader.Read, Stream.read] at hret

theorem Read_positive_witness :
    (streamReader.Read ⟨[], ⟨[.value [7, 8]], 0, 0⟩⟩ [0]).ret = some (1, none) ∧
    (1 > 0) ∧ ([0] : List Byte) ≠ [] :=
  ⟨by decide, by decide,
    (Read_positive ⟨[], ⟨[.value [7, 8]], 0, 0⟩⟩ [0] 1 (by decide) (by decide)).1⟩

/-! ## `streamReader.Read`: draining a stream -/

theorem drain_deliver (r r' : streamReader) (sz : Nat) (rest : List Nat)
    (h : r.Read (List.replicate sz 0) = r'.deliver (List.replicate sz 0)) :
    drain r (sz :: rest) =
      { drain ⟨r'.pending.drop (min sz r'.pending.length), r'.stream⟩ rest with
        bytes := r'.pending.take (min sz r'.pending.length) ++
          (drain ⟨r'.pending.drop (min sz r'.pending.length), r'.stream⟩ rest).bytes } := by
  have ht := copy_snd_take (List.replicate sz 0) r'.pending
  simp only [List.length_replicate] at ht
  simp only [copy_fst, List.length_replicate] at ht
  simp only [drain, h, streamReader.deliver, copy_fst, List.length_replicate, ht]

theorem Read_sourceAt_nil (b : List Byte) (cs : List (List Byte)) (reads cancels : Nat)
    (p : List Byte) :
    streamReader.Read ⟨[], sourceAt (b :: cs) reads cancels⟩ p =
      streamReader.deliver ⟨b, sourceAt cs (reads + 1) cancels⟩ p := by
  simp [streamReader.Read, Stream.read, sourceAt]

theorem drain_sourceAt (sizes : List Nat) :
    ∀ (pending : List Byte) (chunks : List (List Byte)) (reads cancels : Nat),
      (drain ⟨pending, sourceAt chunks reads cancels⟩ sizes).failed = false ∧
      (drain ⟨pending, sourceAt chunks reads cancels⟩ sizes).bytes <+: pending ++ chunks.flatten ∧
      ((drain ⟨pending, sourceAt chunks reads cancels⟩ sizes).eof = true →
        (drain ⟨pending, sourceAt chunks reads cancels⟩ sizes).bytes
          = pending ++ chunks.flatten) ∧
      ((∀ sz ∈ sizes, 0 < sz) →
        pending.length + chunks.flatten.length + chunks.length + 1 ≤ sizes.length →
        (drain ⟨pending, sourceAt chunks reads cancels⟩ sizes).eof = true) := by
  induction sizes with
  | nil =>
    intro pending chunks reads cancels
    simp [drain]
  | cons sz rest ih =>
    intro pending chunks reads cancels
    -- the step through the final copy, shared by the two branches that reach it
    have step : ∀ (r : streamReader) (b : List Byte) (cs : List (List Byte)) (k : Nat),
        r.Read (List.replicate sz 0) =
          streamReader.deliver ⟨b, sourceAt cs k cancels⟩ (List.replicate sz 0) →
        (drain r (sz :: rest)).failed = false ∧
        (drain r (sz :: rest)).bytes <+: b ++ cs.flatten ∧
        ((drain r (sz :: rest)).eof = true → (drain r (sz :: rest)).bytes = b ++ cs.flatten) ∧
        ((∀ s ∈ rest, 0 < s) →
          (b.length - min sz b.length) + cs.flatten.length + cs.length + 1 ≤ rest.length →
          (drain r (sz :: rest)).eof = true) := by
      intro r b cs k hr
      rw [drain_deliver r _ sz rest hr]
      obtain ⟨h1, h2, h3, h4⟩ := ih (b.drop (min sz b.length)) cs k cancels
      refine ⟨h1, ?_, ?_, ?_⟩
      · have : b ++ cs.flatten
            = b.take (min sz b.length) ++ (b.drop (min sz b.length) ++ cs.flatten) := by
          rw [← List.append_assoc, List.take_append_drop]
        simp only
        rw [this]
        exact (List.prefix_append_right_inj _).2 h2
      · intro he
        have := h3 he
        simp only at this ⊢
        rw [this, ← List.append_assoc, List.take_append_drop]
      · intro hpos hlen
        apply h4 hpos
        simpa [List.length_drop] using hlen
    cases pending with
    | cons x xs =>
      have hr := Read_of_pending ⟨x :: xs, sourceAt chunks reads cancels⟩ (List.replicate sz 0)
        (by simp)
      obtain ⟨h1, h2, h3, h4⟩ := step _ (x :: xs) chunks reads hr
      refine ⟨h1, h2, h3, ?_⟩
      intro hpos hlen
      have hsz : 0 < sz := hpos sz (by simp)
      apply h4 (fun s hs => hpos s (by simp [hs]))
      simp only [List.length_cons] at hlen ⊢
      omega
    | nil =>
      cases chunks with
      | nil => simp [drain, streamReader.Read, Stream.read, sourceAt]
      | cons b cs =>
        have hr := Read_sourceAt_nil b cs reads cancels (List.replicate sz 0)
        obtain ⟨h1, h2, h3, h4⟩ := step _ b cs (reads + 1) hr
        refine ⟨h1, by simpa using h2, fun he => by simpa using h3 he, ?_⟩
        intro hpos hlen
        apply h4 (fun s hs => hpos s (by simp [hs]))
        simp only [List.length_cons, List.flatten_cons, List.length_append, List.length_nil]
          at hlen ⊢
        omega

/-- C1. A fresh reader on a chunk source that yields `chunks` and then signals done, read with
buffers of any sizes: no call returns an error other than `io.EOF` or blocks; the bytes
returned so far are always a prefix of the concatenation of the chunks; once a call returns
`io.EOF`, the bytes returned before it are exactly that concatenation; and with non-empty
buffers `io.EOF` is reached within `total bytes + number of chunks + 1` calls. -/
theorem Read_drains_chunks (chunks : List (List Byte)) (sizes : List Nat) :
    (drain ⟨[], chunkSource chunks⟩ sizes).failed = false ∧
    (drain ⟨[], chunkSource chunks⟩ sizes).bytes <+: chunks.flatten ∧
    ((drain ⟨[], chunkSource chunks⟩ sizes).eof = true →
      (drain ⟨[], chunkSource chunks⟩ sizes).bytes = chunks.flatten) ∧
    ((∀ sz ∈ sizes, 0 < sz) → chunks.flatten.length + chunks.length + 1 ≤ sizes.length →
      (drain ⟨[], chunkSource chunks⟩ sizes).eof = true) := by
  have h := drain_sourceAt sizes [] chunks 0 0
  simpa [chunkSource] using h

theorem Read_drains_chunks_witness :
    (drain ⟨[], chunkSource [[1, 2, 3], [], [4, 5]]⟩ [2, 0, 5, 1, 1, 1, 4]).eof = true ∧
    (drain ⟨[], chunkSource [[1, 2, 3], [], [4, 5]]⟩ [2, 0, 5, 1, 1, 1, 4]).bytes
      = [1, 2, 3, 4, 5] :=
  ⟨by decide,
    (Read_drains_chunks [[1, 2, 3], [], [4, 5]] [2, 0, 5, 1, 1, 1, 4]).2.2.1 (by decide)⟩

/-! ## `RoundTrip`: the request body -/

theorem awaitFetch_calls (canon : String → String) (statusText : Int → String) (req : Request)
    (opt : FetchOptions) (calls : List HostCall) (completion : Completion) :
    (awaitFetch canon statusText req opt calls completion).calls
      = calls ++ [HostCall.fetch req.URL opt] := by
  cases completion <;> rfl

theorem appendHeaders_of_accepted (accepts : String → String → Bool)
    (l : List (String × String)) (h : ∀ e ∈ l, accepts e.1 e.2 = true) :
    appendHeaders accepts l = some l := by
  induction l with
  | nil => rfl
  | cons e rest ih =>
    obtain ⟨key, value⟩ := e
    have h1 : accepts key value = true := h (key, value) (by simp)
    have h2 := ih (fun e he => h e (by simp [he]))
    simp [appendHeaders, h1, h2]

theorem appendHeaders_of_rejected (accepts : String → String → Bool)
    (l : List (String × String)) (h : ¬ ∀ e ∈ l, accepts e.1 e.2 = true) :
    appendHeaders accepts l = none := by
  induction l with
  | nil => exact absurd (fun e he => by cases he) h
  | cons e rest ih =>
    obtain ⟨key, value⟩ := e
    by_cases h1 : accepts key value = true
    · have h2 : ¬ ∀ e ∈ rest, accepts e.1 e.2 = true := by
        intro hr
        apply h
        intro e he
        rcases List.mem_cons.1 he with rfl | he
        · exact h1
        · exact hr e he
      simp [appendHeaders, h1, ih h2]
    · simp [appendHeaders, h1]

/-- A header the host rejects ends the call in a panic at line 78, before any other
collaborator is called. -/
theorem RoundTrip_of_rejected (accepts : String → String → Bool) (canon : String → String)
    (statusText : Int → String) (req : Request) (completion : Completion)
    (h : ¬ headersAccepted accepts req) :
    RoundTrip accepts canon statusText req completion
      = { ret := none, panicked := true, calls := [] } := by
  simp only [RoundTrip, appendHeaders_of_rejected accepts (headerPairs req.Header) h]

/-- When the host accepts every header and the request has a body, the calls made are
`ReadAll`, `Close`, and then at most the fetch: `Close` is called exactly once, before any
call of the host fetch primitive, and the call does not panic. -/
theorem RoundTrip_accepted_closes_body (accepts : String → String → Bool)
    (canon : String → String) (statusText : Int → String)
    (req : Request) (completion : Completion) (body : RequestBody)
    (hacc : headersAccepted accepts req) (hbody : req.Body = some body) :
    (RoundTrip accepts canon statusText req completion).calls.count HostCall.bodyClose = 1 ∧
    ((RoundTrip accepts canon statusText req completion).calls.takeWhile
      (fun c => decide (c ≠ HostCall.bodyClose))).all (fun c => !c.isFetch) = true ∧
    (∃ later, (RoundTrip accepts canon statusText req completion).calls
        = [HostCall.bodyReadAll, HostCall.bodyClose] ++ later ∧
      HostCall.bodyClose ∉ later) := by
  have ha := appendHeaders_of_accepted accepts (headerPairs req.Header) hacc
  obtain ⟨content, failure⟩ := body
  cases failure with
  | some err =>
    simp [RoundTrip, ha, hbody, RequestBody.ReadAll, HostCall.isFetch]
  | none =>
    simp [RoundTrip, ha, hbody, RequestBody.ReadAll, awaitFetch_calls, HostCall.isFetch]

/-- C2 fails on a request with a body and a header the host rejects. For the header
`X-Title: ☕` (a value with a code point above `0xFF`) the `append` call of line 78 throws,
`RoundTrip` panics before the body is read, and `Close` is called `0` times, where the claim
and the comment at line 91 ask for exactly one `Close` on every path. -/
theorem RoundTrip_rejected_header_never_closes :
    hostAcceptsHeader "X-Title" "☕" = false ∧
    RoundTrip hostAcceptsHeader CanonicalHeaderKey (fun _ => "OK")
      ⟨"POST", "http://example.org/", [("X-Title", ["☕"])], some ⟨[112, 97], none⟩⟩
      (Completion.fulfilled ⟨200, [], chunkSource []⟩)
      = { ret := none, panicked := true, calls := [] } ∧
    (RoundTrip hostAcceptsHeader CanonicalHeaderKey (fun _ => "OK")
      ⟨"POST", "http://example.org/", [("X-Title", ["☕"])], some ⟨[112, 97], none⟩⟩
      (Completion.fulfilled ⟨200, [], chunkSource []⟩)).calls.count HostCall.bodyClose = 0 := by
  have h : hostAcceptsHeader "X-Title" "☕" = false := by decide
  have hr := RoundTrip_of_rejected hostAcceptsHeader CanonicalHeaderKey (fun _ => "OK")
    ⟨"POST", "http://example.org/", [("X-Title", ["☕"])], some ⟨[112, 97], none⟩⟩
    (Completion.fulfilled ⟨200, [], chunkSource []⟩)
    (fun hacc => by
      have := hacc ("X-Title", "☕") (by simp [headerPairs])
      rw [h] at this
      cases this)
  exact ⟨h, hr, by rw [hr]; rfl⟩

/-- C3. Let the request have a body whose read ends with an error `E`. Then `RoundTrip` never
calls the host fetch primitive, and whenever it reads the body (the call reaches line 89, which
it does exactly when the host accepted every header) it closes the body once and returns
`(nil, E)` with `E` unchanged, whatever the environment would have done after a fetch. -/
theorem RoundTrip_body_read_error (accepts : String → String → Bool) (canon : String → String)
    (statusText : Int → String)
    (req : Request) (completion : Completion) (body : RequestBody) (E : GoError)
    (hbody : req.Body = some body) (hfail : body.ReadAll.2 = some E) :
    (∀ c ∈ (RoundTrip accepts canon statusText req completion).calls, c.isFetch = false) ∧
    (HostCall.bodyReadAll ∈ (RoundTrip accepts canon statusText req completion).calls ↔
      headersAccepted accepts req) ∧
    (HostCall.bodyReadAll ∈ (RoundTrip accepts canon statusText req completion).calls →
      (RoundTrip accepts canon statusText req completion).ret = some (none, some E) ∧
      (RoundTrip accepts canon statusText req completion).panicked = false ∧
      (RoundTrip accepts canon statusText req completion).calls
        = [HostCall.bodyReadAll, HostCall.bodyClose]) := by
  obtain ⟨content, failure⟩ := body
  simp only [RequestBody.ReadAll] at hfail
  subst hfail
  by_cases hacc : headersAccepted accepts req
  · have ha := appendHeaders_of_accepted accepts (headerPairs req.Header) hacc
    simp [RoundTrip, ha, hbody, RequestBody.ReadAll, HostCall.isFetch, hacc]
  · rw [RoundTrip_of_rejected accepts canon statusText req completion hacc]
    simp [hacc]

theorem RoundTrip_body_read_error_witness :
    (some (⟨[112, 97], some (GoError.New "E")⟩ : RequestBody)
      = some ⟨[112, 97], some (GoError.New "E")⟩) ∧
    (RequestBody.ReadAll ⟨[112, 97], some (GoError.New "E")⟩).2 = some (GoError.New "E") ∧
    HostCall.bodyReadAll ∈ (RoundTrip hostAcceptsHeader CanonicalHeaderKey (fun _ => "OK")
      ⟨"POST", "http://example.org/", [("Content-Type", ["text/plain"])],
        some ⟨[112, 97], some (GoError.New "E")⟩⟩
      (Completion.fulfilled ⟨200, [], chunkSource []⟩)).calls ∧
    (RoundTrip hostAcceptsHeader CanonicalHeaderKey (fun _ => "OK")
      ⟨"POST", "http://example.org/", [("Content-Type", ["text/plain"])],
        some ⟨[112, 97], some (GoError.New "E")⟩⟩
      (Completion.fulfilled ⟨200, [], chunkSource []⟩)).ret = some (none, some (GoError.New "E")) :=
  ⟨rfl, rfl, by decide, ((RoundTrip_body_read_error hostAcceptsHeader CanonicalHeaderKey
      (fun _ => "OK")
      ⟨"POST", "http://example.org/", [("Content-Type", ["text/plain"])],
        some ⟨[112, 97], some (GoError.New "E")⟩⟩
      (Completion.fulfilled ⟨200, [], chunkSource []⟩) ⟨[112, 97], some (GoError.New "E")⟩
      (GoError.New "E") rfl rfl).2.2 (by decide)).1⟩

/-! ## `RoundTrip`: the response header -/

theorem Header.index_set (h : Header) (k k' : String) (v : List String) :
    (h.set k v).index k' = if k = k' then v else h.index k' := by
  induction h with
  | nil => simp [Header.set, Header.index]
  | cons e rest ih =>
    obtain ⟨k0, v0⟩ := e
    by_cases h0 : k0 = k
    · subst h0
      by_cases h1 : k0 = k' <;> simp [Header.set, Header.index, h1]
    · by_cases h1 : k0 = k'
      · subst h1
        have : ¬ k = k0 := fun e => h0 e.symm
        simp [Header.set, Header.index, h0, this]
      · simp [Header.set, Header.index, h0, h1, ih]

theorem Header.keys_set (h : Header) (k : String) (v : List String) :
    (h.set k v).keys = if k ∈ h.keys then h.keys else h.keys ++ [k] := by
  induction h with
  | nil => simp [Header.set, Header.keys]
  | cons e rest ih =>
    obtain ⟨k0, v0⟩ := e
    by_cases h0 : k0 = k
    · subst h0
      simp [Header.set, Header.keys]
    · have h0' : ¬ k = k0 := fun e => h0 e.symm
      simp only [Header.keys] at ih
      by_cases hm : k ∈ List.map Prod.fst rest
      · simp [Header.set, Header.keys, h0, h0', hm, ih]
      · simp [Header.set, Header.keys, h0, h0', hm, ih]

/-- The fold of `collectHeader` started from any map with distinct keys. -/
theorem collect_from (canon : String → String) (entries : List (String × String)) :
    ∀ h : Header, h.keys.Nodup →
      (∀ k, (entries.foldl
          (fun header e => header.set (canon e.1) (header.index (canon e.1) ++ [e.2])) h).index k
        = h.index k ++ (entries.filter (fun e => decide (canon e.1 = k))).map Prod.snd) ∧
      (entries.foldl
          (fun header e => header.set (canon e.1) (header.index (canon e.1) ++ [e.2])) h).keys.Nodup ∧
      (∀ k, k ∈ (entries.foldl
          (fun header e => header.set (canon e.1) (header.index (canon e.1) ++ [e.2])) h).keys
        ↔ k ∈ h.keys ∨ ∃ e ∈ entries, canon e.1 = k) := by
  induction entries with
  | nil => intro h hn; simp [hn]
  | cons e rest ih =>
    intro h hn
    have hn' : (h.set (canon e.1) (h.index (canon e.1) ++ [e.2])).keys.Nodup := by
      rw [Header.keys_set]
      split
      · exact hn
      · rename_i hk
        exact List.Nodup.append hn (List.nodup_singleton _) (by simpa using hk)
    obtain ⟨h1, h2, h3⟩ := ih _ hn'
    simp only [List.foldl_cons]
    refine ⟨?_, h2, ?_⟩
    · intro k
      rw [h1 k, Header.index_set]
      by_cases hk : canon e.1 = k
      · simp [hk, List.filter_cons]
      · simp [hk, List.filter_cons]
    · intro k
      rw [h3 k, Header.keys_set]
      by_cases hm : canon e.1 ∈ h.keys
      · simp only [hm, if_true, List.mem_cons, exists_eq_or_imp]
        constructor
        · rintro (hk | ⟨x, hx, hxk⟩)
          · exact Or.inl hk
          · exact Or.inr (Or.inr ⟨x, hx, hxk⟩)
        · rintro (hk | hk | ⟨x, hx, hxk⟩)
          · exact Or.inl hk
          · exact Or.inl (hk ▸ hm)
          · exact Or.inr ⟨x, hx, hxk⟩
      · simp only [hm, if_false, List.mem_append, List.mem_cons, List.not_mem_nil, or_false,
          exists_eq_or_imp]
        constructor
        · rintro ((hk | hk) | ⟨x, hx, hxk⟩)
          · exact Or.inl hk
          · exact Or.inr (Or.inl hk.symm)
          · exact Or.inr (Or.inr ⟨x, hx, hxk⟩)
        · rintro (hk | hk | ⟨x, hx, hxk⟩)
          · exact Or.inl (Or.inl hk)
          · exact Or.inl (Or.inr hk.symm)
          · exact Or.inr ⟨x, hx, hxk⟩

theorem collectHeader_spec (canon : String → String) (entries : List (String × String)) :
    (∀ k, (collectHeader canon entries).index k
      = (entries.filter (fun e => decide (canon e.1 = k))).map Prod.snd) ∧
    (collectHeader canon entries).keys.Nodup ∧
    (∀ k, k ∈ (collectHeader canon entries).keys ↔ ∃ e ∈ entries, canon e.1 = k) := by
  have h := collect_from canon entries [] (by simp [Header.keys])
  simpa [collectHeader, Header.index, Header.keys] using h

theorem RoundTrip_fulfilled (accepts : String → String → Bool) (canon : String → String)
    (statusText : Int → String) (req : Request) (result : NativeResponse)
    (hacc : headersAccepted accepts req)
    (hreq : ∀ body, req.Body = some body → body.ReadAll.2 = none) :
    (RoundTrip accepts canon statusText req (Completion.fulfilled result)).ret
      = some (some (buildResponse canon statusText req result), none) := by
  have ha := appendHeaders_of_accepted accepts (headerPairs req.Header) hacc
  cases hb : req.Body with
  | none => simp [RoundTrip, ha, hb, awaitFetch]
  | some body =>
    have := hreq body hb
    obtain ⟨content, failure⟩ := body
    simp only [RequestBody.ReadAll] at this
    subst this
    simp [RoundTrip, ha, hb, awaitFetch, RequestBody.ReadAll]

/-- C4. On a successful completion (the call got as far as the fetch: the host accepted the
request headers and the request body, if any, was read without error; and the host resolves
the fetch with a response reporting header entries `(key, value)`), `RoundTrip`
returns a response and no error, and the response `Header` maps every key `k` to exactly the
values of the reported entries whose canonicalized key is `k`, in the order reported. Its keys
are pairwise distinct and are exactly the canonicalized reported keys, so two reported keys
with the same canonical form land under one key. -/
theorem RoundTrip_header (accepts : String → String → Bool) (canon : String → String)
    (statusText : Int → String) (req : Request) (result : NativeResponse)
    (hacc : headersAccepted accepts req)
    (hreq : ∀ body, req.Body = some body → body.ReadAll.2 = none) :
    ∃ resp, (RoundTrip accepts canon statusText req (Completion.fulfilled result)).ret
        = some (some resp, none) ∧
      (∀ k, resp.Header.index k
        = (result.headers.filter (fun e => decide (canon e.1 = k))).map Prod.snd) ∧
      resp.Header.keys.Nodup ∧
      (∀ k, k ∈ resp.Header.keys ↔ ∃ e ∈ result.headers, canon e.1 = k) ∧
      (∀ e1 ∈ result.headers, ∀ e2 ∈ result.headers, canon e1.1 = canon e2.1 →
        e1.2 ∈ resp.Header.index (canon e1.1) ∧ e2.2 ∈ resp.Header.index (canon e1.1)) := by
  refine ⟨buildResponse canon statusText req result,
    RoundTrip_fulfilled accepts canon statusText req result hacc hreq, ?_⟩
  obtain ⟨h1, h2, h3⟩ := collectHeader_spec canon result.headers
  refine ⟨h1, h2, h3, ?_⟩
  intro e1 he1 e2 he2 hc
  have hi : (buildResponse canon statusText req result).Header.index (canon e1.1)
      = (result.headers.filter (fun e => decide (canon e.1 = canon e1.1))).map Prod.snd :=
    h1 (canon e1.1)
  rw [hi]
  constructor
  · exact List.mem_map.2 ⟨e1, List.mem_filter.2 ⟨he1, by simp⟩, rfl⟩
  · exact List.mem_map.2 ⟨e2, List.mem_filter.2 ⟨he2, by simp [hc]⟩, rfl⟩

theorem RoundTrip_header_witness :
    ∃ resp, (RoundTrip hostAcceptsHeader CanonicalHeaderKey (fun _ => "OK")
        ⟨"GET", "http://example.org/", [("Accept", ["text/plain", "text/html"])], none⟩
        (Completion.fulfilled
          ⟨200, [("content-type", "a"), ("x-id", "b"), ("Content-Type", "c")],
            chunkSource []⟩)).ret = some (some resp, none) ∧
      resp.Header.index "Content-Type" = ["a", "c"] := by
  obtain ⟨resp, h1, h2, -⟩ := RoundTrip_header hostAcceptsHeader CanonicalHeaderKey
    (fun _ => "OK")
    ⟨"GET", "http://example.org/", [("Accept", ["text/plain", "text/html"])], none⟩
    ⟨200, [("content-type", "a"), ("x-id", "b"), ("Content-Type", "c")], chunkSource []⟩
    (by unfold headersAccepted; decide) (by intro body hb; cases hb)
  refine ⟨resp, h1, ?_⟩
  rw [h2]
  decide

/-! ## `RoundTrip`: the content length -/

theorem digit_bound (d : Char) (h : isDecimalDigit d = true) : d.toNat - '0'.toNat < 10 := by
  simp only [isDecimalDigit, decide_eq_true_eq] at h
  obtain ⟨h1, h2⟩ := h
  have h2' : d.toNat ≤ '9'.toNat := h2
  have : '9'.toNat = 57 := by decide
  have : '0'.toNat = 48 := by decide
  omega

theorem digitsValue_foldl_ge (ds : List Char) : ∀ n : Nat,
    n ≤ ds.foldl (fun acc c => 10 * acc + (c.toNat - '0'.toNat)) n := by
  induction ds with
  | nil => intro n; simp
  | cons d rest ih =>
    intro n
    simp only [List.foldl_cons]
    have := ih (10 * n + (d.toNat - '0'.toNat))
    omega

theorem parseUintLoop_spec (ds : List Char) : ∀ n : Nat, n < 2 ^ 64 →
    (ds.all isDecimalDigit = true ∧
        ds.foldl (fun acc c => 10 * acc + (c.toNat - '0'.toNat)) n < 2 ^ 64 →
      parseUintLoop ds n
        = (ds.foldl (fun acc c => 10 * acc + (c.toNat - '0'.toNat)) n, none)) ∧
    (¬ (ds.all isDecimalDigit = true ∧
        ds.foldl (fun acc c => 10 * acc + (c.toNat - '0'.toNat)) n < 2 ^ 64) →
      parseUintLoop ds n = (2 ^ 64 - 1, some .ErrRange) ∨
      parseUintLoop ds n = (0, some .ErrSyntax)) := by
  induction ds with
  | nil =>
    intro n hn
    refine ⟨fun _ => rfl, fun h => absurd ⟨by simp, by simpa using hn⟩ h⟩
  | cons d rest ih =>
    intro n hn
    by_cases hd : isDecimalDigit d = true
    · have hv := digit_bound d hd
      have hd' : '0' ≤ d ∧ d ≤ '9' := by simpa [isDecimalDigit] using hd
      have hge := digitsValue_foldl_ge rest (10 * n + (d.toNat - '0'.toNat))
      simp only [List.all_cons, hd, Bool.true_and, List.foldl_cons]
      simp only [parseUintLoop, hd', and_self, if_true]
      have hnot : ¬ (d.toNat - '0'.toNat ≥ 10) := by omega
      simp only [hnot, if_false]
      by_cases hc : n ≥ uintCutoff
      · simp only [hc, if_true]
        have : 2 ^ 64 ≤ 10 * n + (d.toNat - '0'.toNat) := by
          simp only [uintCutoff] at hc
          norm_num at hc ⊢
          omega
        constructor
        · intro h; omega
        · intro _; simp
      · simp only [hc, if_false]
        have hn10 : n * 10 % 2 ^ 64 = n * 10 := by
          apply Nat.mod_eq_of_lt
          simp only [uintCutoff] at hc
          norm_num at hc ⊢
          omega
        rw [hn10]
        by_cases ho : n * 10 + (d.toNat - '0'.toNat) < 2 ^ 64
        · have hn1 : (n * 10 + (d.toNat - '0'.toNat)) % 2 ^ 64
              = 10 * n + (d.toNat - '0'.toNat) := by
            rw [Nat.mod_eq_of_lt ho]; ring
          rw [hn1]
          have hcond : ¬ (10 * n + (d.toNat - '0'.toNat) < n * 10 ∨
              10 * n + (d.toNat - '0'.toNat) > 2 ^ 64 - 1) := by
            norm_num at ho ⊢
            omega
          simp only [hcond, if_false]
          exact ih _ (by omega)
        · have hcond : (n * 10 + (d.toNat - '0'.toNat)) % 2 ^ 64 < n * 10 ∨
              (n * 10 + (d.toNat - '0'.toNat)) % 2 ^ 64 > 2 ^ 64 - 1 := by
            left
            simp only [uintCutoff] at hc
            norm_num at ho hc ⊢
            omega
          simp only [hcond, if_true]
          constructor
          · intro h; omega
          · intro _; simp
    · have hd' : ¬ ('0' ≤ d ∧ d ≤ '9') := by simpa [isDecimalDigit] using hd
      simp only [List.all_cons, hd, Bool.false_and]
      constructor
      · intro h; simp at h
      · intro _
        simp only [parseUintLoop, hd', if_false]
        split
        · rename_i heq
          split at heq
          · simp at heq
          · split at heq
            · simp at heq
            · exact Or.inr rfl
        · rename_i v heq
          have hv : v ≥ 10 := by
            split at heq
            · simp at heq; omega
            · split at heq
              · simp at heq; omega
              · simp at heq
          simp [hv]

theorem ParseUint_spec (ds : List Char) :
    (∀ v, unsignedDecimal ds = some v → v < 2 ^ 64 → ParseUint ds = (v, none)) ∧
    ((∀ v, unsignedDecimal ds = some v → 2 ^ 64 ≤ v) →
      ParseUint ds = (2 ^ 64 - 1, some .ErrRange) ∨ ParseUint ds = (0, some .ErrSyntax)) := by
  cases ds with
  | nil => simp [unsignedDecimal, ParseUint]
  | cons d rest =>
    have hlen : ¬ ((d :: rest).length < 1) := by simp
    obtain ⟨h1, h2⟩ := parseUintLoop_spec (d :: rest) 0 (by norm_num)
    simp only [ParseUint, hlen, if_false]
    by_cases hall : (d :: rest).all isDecimalDigit = true
    · have hu : unsignedDecimal (d :: rest) = some (digitsValue (d :: rest)) := by
        simp only [unsignedDecimal]
        rw [if_pos ⟨by simp, hall⟩]
      rw [hu]
      constructor
      · intro v hv hlt
        cases hv
        exact h1 ⟨hall, hlt⟩
      · intro h
        have := h _ rfl
        apply h2
        rintro ⟨-, hlt⟩
        simp only [digitsValue] at this
        omega
    · have hu : unsignedDecimal (d :: rest) = none := by
        simp only [unsignedDecimal]
        rw [if_neg (fun h => hall h.2)]
      rw [hu]
      constructor
      · intro v hv; cases hv
      · intro _
        exact h2 (fun h => hall h.1)

theorem toInt64_of_lt (v : Nat) (h : v < 2 ^ 63) : toInt64 (v : Int) = (v : Int) := by
  have h' : v < 9223372036854775808 := by norm_num at h; exact h
  unfold toInt64
  norm_num
  omega

theorem toInt64_neg_of_le (v : Nat) (h : v ≤ 2 ^ 63) :
    toInt64 (-(toInt64 (v : Int))) = -(v : Int) := by
  have h' : v ≤ 9223372036854775808 := by norm_num at h; exact h
  unfold toInt64
  norm_num
  omega

theorem parseIntTail_ok (neg : Bool) (v : Nat)
    (hlo : -(2 ^ 63 : Int) ≤ (if neg = true then -(v : Int) else (v : Int)))
    (hhi : (if neg = true then -(v : Int) else (v : Int)) < 2 ^ 63) :
    parseIntTail neg (v, none) = ((if neg = true then -(v : Int) else (v : Int)), none) := by
  cases neg with
  | true =>
    simp only [if_true] at hlo hhi ⊢
    have hle : v ≤ 2 ^ 63 := by
      norm_num at hlo ⊢
      omega
    have hgt : ¬ (v > 2 ^ 63) := by omega
    unfold parseIntTail
    rw [if_neg (fun h => h.1 rfl), if_neg (fun h => h.1 rfl), if_neg (fun h => hgt h.2)]
    simp only [if_true]
    rw [toInt64_neg_of_le v hle]
  | false =>
    simp only [Bool.false_eq_true, if_false] at hlo hhi ⊢
    have hlt : v < 2 ^ 63 := by
      norm_num at hhi ⊢
      omega
    have hge : ¬ (v ≥ 2 ^ 63) := by omega
    unfold parseIntTail
    rw [if_neg (fun h => h.1 rfl), if_neg (fun h => hge h.2), if_neg (fun h => by simp at h)]
    simp only [Bool.false_eq_true, if_false]
    rw [toInt64_of_lt v hlt]

theorem parseIntTail_out (neg : Bool) (v : Nat)
    (h : ¬ (-(2 ^ 63 : Int) ≤ (if neg = true then -(v : Int) else (v : Int)) ∧
      (if neg = true then -(v : Int) else (v : Int)) < 2 ^ 63)) :
    (parseIntTail neg (v, none)).2 ≠ none := by
  cases neg with
  | true =>
    simp only [if_true] at h
    have hgt : v > 2 ^ 63 := by
      norm_num at h ⊢
      omega
    unfold parseIntTail
    rw [if_neg (fun h => h.1 rfl), if_neg (fun h => h.1 rfl), if_pos ⟨rfl, hgt⟩]
    simp
  | false =>
    simp only [Bool.false_eq_true, if_false] at h
    have hge : v ≥ 2 ^ 63 := by
      norm_num at h ⊢
      omega
    unfold parseIntTail
    rw [if_neg (fun h => h.1 rfl), if_pos ⟨by simp, hge⟩]
    simp

theorem parseIntTail_err (neg : Bool) (r : Nat × Option NumError)
    (h : r = (2 ^ 64 - 1, some .ErrRange) ∨ r = (0, some .ErrSyntax)) :
    (parseIntTail neg r).2 ≠ none := by
  rcases h with h | h
  · subst h
    cases neg <;> simp [parseIntTail]
  · subst h
    simp [parseIntTail]


theorem ParseInt_spec (s : List Char) :
    (∀ x, signedDecimal s = some x → -(2 ^ 63 : Int) ≤ x → x < 2 ^ 63 →
      ParseInt s = (x, none)) ∧
    ((∀ x, signedDecimal s = some x → ¬ (-(2 ^ 63 : Int) ≤ x ∧ x < 2 ^ 63)) →
      (ParseInt s).2 ≠ none) := by
  cases s with
  | nil => simp [signedDecimal, ParseInt]
  | cons c ds =>
    -- `neg` and the digits that go to `ParseUint`, by the first character
    have core : ∀ (neg : Bool) (s' : List Char),
        ParseInt (c :: ds) = parseIntTail neg (ParseUint s') →
        signedDecimal (c :: ds) = (unsignedDecimal s').map
          (fun (v : Nat) => if neg = true then -(v : Int) else (v : Int)) →
        (∀ x, signedDecimal (c :: ds) = some x → -(2 ^ 63 : Int) ≤ x → x < 2 ^ 63 →
          ParseInt (c :: ds) = (x, none)) ∧
        ((∀ x, signedDecimal (c :: ds) = some x → ¬ (-(2 ^ 63 : Int) ≤ x ∧ x < 2 ^ 63)) →
          (ParseInt (c :: ds)).2 ≠ none) := by
      intro neg s' hP hS
      obtain ⟨h1, h2⟩ := ParseUint_spec s'
      rw [hP, hS]
      cases hu : unsignedDecimal s' with
      | none =>
        refine ⟨fun x hx => by simp at hx, fun _ => ?_⟩
        exact parseIntTail_err neg _ (h2 (fun v hv => by rw [hu] at hv; cases hv))
      | some v =>
        by_cases hv : v < 2 ^ 64
        · rw [h1 v hu hv]
          constructor
          · intro x hx hlo hhi
            simp only [Option.map_some', Option.some.injEq] at hx
            subst hx
            exact parseIntTail_ok neg v hlo hhi
          · intro h
            exact parseIntTail_out neg v (h _ rfl)
        · refine ⟨fun x hx hlo hhi => ?_, fun _ => ?_⟩
          · simp only [Option.map_some', Option.some.injEq] at hx
            subst hx
            exfalso
            cases neg
            · simp only [Bool.false_eq_true, if_false] at hhi
              norm_num at hv hhi
              omega
            · simp only [if_true] at hlo
              norm_num at hv hlo
              omega
          · exact parseIntTail_err neg _
              (h2 (fun w hw => by rw [hu] at hw; cases hw; omega))
    by_cases hp : c = '+'
    · subst hp
      exact core false ds (by simp [ParseInt]) (by simp [signedDecimal])
    · by_cases hm : c = '-'
      · subst hm
        exact core true ds (by simp [ParseInt]) (by simp [signedDecimal])
      · exact core false (c :: ds) (by simp [ParseInt, hp, hm]) (by simp [signedDecimal, hp, hm])

theorem contentLength_eq (canon : String → String) (header : Header) :
    contentLength canon header = specContentLength (header.Get canon "Content-Length") := by
  obtain ⟨h1, h2⟩ := ParseInt_spec (header.Get canon "Content-Length").toList
  unfold contentLength specContentLength
  cases hs : signedDecimal (header.Get canon "Content-Length").toList with
  | none =>
    have hne := h2 (fun x hx => by rw [hs] at hx; cases hx)
    cases hP : ParseInt (header.Get canon "Content-Length").toList with
    | mk cl err =>
      cases err with
      | none => rw [hP] at hne; exact absurd rfl hne
      | some e => rfl
  | some x =>
    by_cases hr : -(2 ^ 63 : Int) ≤ x ∧ x < 2 ^ 63
    · rw [h1 x hs hr.1 hr.2]
      simp only [hr, and_self, if_true]
    · have hne := h2 (fun y hy => by rw [hs] at hy; cases hy; exact hr)
      simp only [hr, if_false]
      cases hP : ParseInt (header.Get canon "Content-Length").toList with
      | mk cl err =>
        cases err with
        | none => rw [hP] at hne; exact absurd rfl hne
        | some e => rfl

theorem Header.Get_collectHeader (canon : String → String) (entries : List (String × String))
    (key : String) :
    (collectHeader canon entries).Get canon key
      = (((entries.filter (fun e => decide (canon e.1 = canon key))).map Prod.snd).head?).getD "" := by
  unfold Header.Get
  rw [(collectHeader_spec canon entries).1 (canon key)]
  cases (entries.filter (fun e => decide (canon e.1 = canon key))).map Prod.snd <;> rfl

/-- C5. On a successful completion (the call got as far as the fetch: the host accepted the
request headers and the request body, if any, was read without error; and the host resolves
the fetch) `RoundTrip` returns a response and no error, whatever the `Content-Length` header
holds, and the response `ContentLength` is determined by the first
reported value whose key canonicalizes like `Content-Length` (the empty string when there is
none): it is the integer that value denotes when the value is an optional sign followed by
one or more decimal digits and the integer lies in `[-2^63, 2^63)`, and `-1` in every other
case (absent, empty, not a number, out of range). -/
theorem RoundTrip_contentLength (accepts : String → String → Bool) (canon : String → String)
    (statusText : Int → String) (req : Request) (result : NativeResponse)
    (hacc : headersAccepted accepts req)
    (hreq : ∀ body, req.Body = some body → body.ReadAll.2 = none) :
    ∃ resp, (RoundTrip accepts canon statusText req (Completion.fulfilled result)).ret
        = some (some resp, none) ∧
      resp.ContentLength = specContentLength
        ((((result.headers.filter
          (fun e => decide (canon e.1 = canon "Content-Length"))).map Prod.snd).head?).getD "") ∧
      (∀ x, resp.ContentLength = x → x ≠ -1 →
        signedDecimal ((((result.headers.filter
          (fun e => decide (canon e.1 = canon "Content-Length"))).map Prod.snd).head?).getD
            "").toList = some x ∧ -(2 ^ 63 : Int) ≤ x ∧ x < 2 ^ 63) := by
  refine ⟨buildResponse canon statusText req result,
    RoundTrip_fulfilled accepts canon statusText req result hacc hreq, ?_⟩
  have hcl : (buildResponse canon statusText req result).ContentLength = specContentLength
      ((((result.headers.filter
        (fun e => decide (canon e.1 = canon "Content-Length"))).map Prod.snd).head?).getD "") := by
    show contentLength canon (collectHeader canon result.headers) = _
    rw [contentLength_eq, Header.Get_collectHeader]
  refine ⟨hcl, ?_⟩
  intro x hx hne
  rw [hcl] at hx
  unfold specContentLength at hx
  split at hx
  · rename_i y hy
    split at hx
    · rename_i hr
      subst hx
      exact ⟨hy, hr⟩
    · exact absurd hx.symm hne
  · exact absurd hx.symm hne

theorem RoundTrip_contentLength_witness :
    (∃ resp, (RoundTrip hostAcceptsHeader CanonicalHeaderKey (fun _ => "OK")
        ⟨"GET", "http://example.org/", [("Accept", ["*/*"])], none⟩
        (Completion.fulfilled ⟨200, [("content-length", "abc")], chunkSource []⟩)).ret
          = some (some resp, none) ∧ resp.ContentLength = -1) ∧
    (∃ resp, (RoundTrip hostAcceptsHeader CanonicalHeaderKey (fun _ => "OK")
        ⟨"GET", "http://example.org/", [("Accept", ["*/*"])], none⟩
        (Completion.fulfilled ⟨200, [("content-length", "1234")], chunkSource []⟩)).ret
          = some (some resp, none) ∧ resp.ContentLength = 1234) := by
  constructor
  · obtain ⟨resp, h1, h2, -⟩ := RoundTrip_contentLength hostAcceptsHeader CanonicalHeaderKey
      (fun _ => "OK")
      ⟨"GET", "http://example.org/", [("Accept", ["*/*"])], none⟩ ⟨200, [("content-length", "abc")], chunkSource []⟩
      (by unfold headersAccepted; decide) (by intro body hb; cases hb)
    refine ⟨resp, h1, ?_⟩
    rw [h2]
    decide
  · obtain ⟨resp, h1, h2, -⟩ := RoundTrip_contentLength hostAcceptsHeader CanonicalHeaderKey
      (fun _ => "OK")
      ⟨"GET", "http://example.org/", [("Accept", ["*/*"])], none⟩ ⟨200, [("content-length", "1234")], chunkSource []⟩
      (by unfold headersAccepted; decide) (by intro body hb; cases hb)
    refine ⟨resp, h1, ?_⟩
    rw [h2]
    decide

/-! ## `reflect.Swapper` -/

theorem toUint_natCast (n : Nat) (h : n < 2 ^ 31) : toUint (n : Int) = n := by
  unfold toUint intBits
  have h' : n < 2147483648 := by norm_num at h; exact h
  norm_num
  omega

theorem toUint_of_nonneg (i : Int) (h0 : 0 ≤ i) (hi : isInt i) : toUint i = i.toNat := by
  unfold isInt intBits at hi
  unfold toUint intBits
  norm_num at hi ⊢
  omega

theorem toUint_of_neg (i : Int) (h0 : i < 0) (hi : isInt i) : 2 ^ 31 ≤ toUint i := by
  unfold isInt intBits at hi
  unfold toUint intBits
  norm_num at hi ⊢
  omega

theorem swapIndex_getElem? {α : Type} (s : List α) (i j : Nat) (hi : i < s.length)
    (hj : j < s.length) (k : Nat) :
    (swapIndex s i j)[k]? = if k = j then s[i]? else if k = i then s[j]? else s[k]? := by
  unfold swapIndex
  rw [List.getElem?_eq_getElem hi, List.getElem?_eq_getElem hj]
  simp only [List.getElem?_set, List.length_set]
  by_cases hkj : k = j
  · subst hkj
    simp [hj]
  · have hjk : ¬ j = k := fun e => hkj e.symm
    by_cases hki : k = i
    · subst hki
      simp [hkj, hjk, hi]
    · have hik : ¬ i = k := fun e => hki e.symm
      simp [hkj, hjk, hki, hik]

theorem swapIndex_length {α : Type} (s : List α) (i j : Nat) :
    (swapIndex s i j).length = s.length := by
  unfold swapIndex
  split <;> simp

/-- What the function returned by `Swapper` does on any slice: with `i` and `j` inside the
bounds of the slice it exchanges positions `i` and `j` of the backing array, and otherwise it
panics and leaves the array as it is. -/
theorem swapperOf_spec {α : Type} (slice : Slice α) (hlen : slice.length < 2 ^ 31)
    (i j : Int) (hi : isInt i) (hj : isInt j) (s : List α) (hs : slice.length ≤ s.length) :
    ((0 ≤ i ∧ i < slice.length) ∧ (0 ≤ j ∧ j < slice.length) →
      (swapperOf slice i j s).panicked = none ∧
      (swapperOf slice i j s).array.length = s.length ∧
      ∀ k, (swapperOf slice i j s).array[k]?
        = if k = j.toNat then s[i.toNat]? else if k = i.toNat then s[j.toNat]? else s[k]?) ∧
    (¬ ((0 ≤ i ∧ i < slice.length) ∧ (0 ≤ j ∧ j < slice.length)) →
      swapperOf slice i j s = ⟨some "reflect: slice index out of range", s⟩) := by
  have hu : toUint (slice.length : Int) = slice.length := toUint_natCast _ hlen
  have hcheck : (toUint i ≥ slice.length ∨ toUint j ≥ slice.length)
      ↔ ¬ ((0 ≤ i ∧ i < slice.length) ∧ (0 ≤ j ∧ j < slice.length)) := by
    have key : ∀ x : Int, isInt x → (toUint x ≥ slice.length ↔ ¬ (0 ≤ x ∧ x < slice.length)) := by
      intro x hx
      by_cases h0 : 0 ≤ x
      · rw [toUint_of_nonneg x h0 hx]
        omega
      · have := toUint_of_neg x (by omega) hx
        constructor
        · intro _ h; exact h0 h.1
        · intro _; omega
    rw [key i hi, key j hj]
    tauto
  unfold swapperOf
  rw [hu]
  rcases hl : slice.length with _ | _ | n
  · simp only
    refine ⟨fun h => ?_, fun _ => by simp⟩
    exfalso
    have := h.1.2
    simp only [Nat.cast_zero] at this
    omega
  · simp only
    rw [hl] at hs
    constructor
    · rintro ⟨⟨h1, h2⟩, h3, h4⟩
      have hi0 : i = 0 := by omega
      have hj0 : j = 0 := by omega
      subst hi0 hj0
      refine ⟨by simp, by simp, fun k => ?_⟩
      by_cases hk : k = 0 <;> simp [hk]
    · intro h
      have : i ≠ 0 ∨ j ≠ 0 := by
        by_contra hc
        push_neg at hc
        apply h
        rw [hc.1, hc.2]
        simp
      simp [this]
  · simp only
    rw [hl] at hcheck hs
    constructor
    · intro h
      have hno : ¬ (toUint i ≥ n + 1 + 1 ∨ toUint j ≥ n + 1 + 1) := by
        rw [hcheck]; exact not_not.2 h
      rw [if_neg hno]
      refine ⟨rfl, swapIndex_length s i.toNat j.toNat, fun k => ?_⟩
      exact swapIndex_getElem? s i.toNat j.toNat (by omega) (by omega) k
    · intro h
      rw [if_pos (hcheck.2 h)]

/-- On a slice that starts at the beginning of its backing array (offset `0`), the function
returned by `Swapper` is the bounds-checked swap of the slice elements: inside the bounds it
exchanges the elements at `i` and `j` and leaves the others and the length as they are. -/
theorem Swapper_offset_zero {α : Type} (slice : Slice α) (hoff : slice.offset = 0)
    (hwf : slice.length ≤ slice.array.length) (hlen : slice.length < 2 ^ 31)
    (i j : Int) (hi : isInt i) (hj : isInt j)
    (hin : (0 ≤ i ∧ i < slice.length) ∧ (0 ≤ j ∧ j < slice.length)) :
    ∃ f, Swapper (GoValue.slice slice) = .ok f ∧
      (f i j slice.array).panicked = none ∧
      (slice.after (f i j slice.array)).elems.length = slice.elems.length ∧
      ∀ k, (slice.after (f i j slice.array)).elems[k]?
        = if k = j.toNat then slice.elems[i.toNat]?
          else if k = i.toNat then slice.elems[j.toNat]? else slice.elems[k]? := by
  obtain ⟨hp, hal, hk⟩ := (swapperOf_spec slice hlen i j hi hj slice.array hwf).1 hin
  refine ⟨swapperOf slice, rfl, hp, ?_, ?_⟩
  · simp [Slice.after, Slice.elems, hoff, hal]
  · intro k
    simp only [Slice.after, Slice.elems, hoff, List.drop_zero, List.getElem?_take]
    by_cases hkl : k < slice.length
    · have h1 : i.toNat < slice.length := by omega
      have h2 : j.toNat < slice.length := by omega
      simp only [hkl, h1, h2, if_true]
      exact hk k
    · have h1 : i.toNat < slice.length := by omega
      have h2 : j.toNat < slice.length := by omega
      have h3 : ¬ k = j.toNat := by omega
      have h4 : ¬ k = i.toNat := by omega
      simp [hkl, h3, h4]

/-- C10 fails on a slice that does not start at the beginning of its backing array. For the
slice `a[1:4]` of `a = [10, 20, 30, 40]`, whose elements are `[20, 30, 40]`, the call with
`i = 0` and `j = 1` passes the bounds check and exchanges `a[0]` and `a[1]`: the slice then
reads `[10, 30, 40]`, where exchanging its elements at `0` and `1` gives `[30, 20, 40]`. -/
theorem Swapper_subslice_wrong_elements :
    ∃ f, Swapper (GoValue.slice (⟨[10, 20, 30, 40], 1, 3⟩ : Slice Nat)) = .ok f ∧
      Slice.elems (⟨[10, 20, 30, 40], 1, 3⟩ : Slice Nat) = [20, 30, 40] ∧
      f 0 1 [10, 20, 30, 40] = ⟨none, [20, 10, 30, 40]⟩ ∧
      (Slice.after (⟨[10, 20, 30, 40], 1, 3⟩ : Slice Nat) (f 0 1 [10, 20, 30, 40])).elems
        = [10, 30, 40] ∧
      swapElems (Slice.elems (⟨[10, 20, 30, 40], 1, 3⟩ : Slice Nat)) 0 1 = [30, 20, 40] :=
  ⟨swapperOf ⟨[10, 20, 30, 40], 1, 3⟩, rfl, by decide, by decide, by decide, by decide⟩

end GopherJS
